import Mathlib

/-!
Verification of the question-answering retrieval pipeline in
`questions/questions.py`: tokenization, IDF computation, TF-IDF document
ranking (`top_files`) and IDF-plus-density sentence ranking
(`top_sentences`).

Python dictionaries are embedded as association lists `List (String × β)`
in insertion order; Python's fatal `KeyError` / `ZeroDivisionError` are
embedded by making the affected operations return `Option`.  The external
collaborators (the NLTK word tokenizer, the sentence splitter and the
stopword list) are taken as explicit parameters.  IDF values are real
numbers; the ranking functions are polymorphic in a linearly ordered field
so that they can also be executed on `ℚ` for concrete test inputs.
-/

namespace Questions

/-! ### Tokenizer (`tokenize`) -/

/-- The ASCII punctuation set, exactly Python's `string.punctuation`
(codepoints 33–47, 58–64, 91–96 and 123–126). -/
def isPunct (c : Char) : Bool :=
  (33 ≤ c.toNat && c.toNat ≤ 47) || (58 ≤ c.toNat && c.toNat ≤ 64) ||
  (91 ≤ c.toNat && c.toNat ≤ 96) || (123 ≤ c.toNat && c.toNat ≤ 126)

/-- The loop `for character in word: if character in string.punctuation:
word = word.replace(character, '')`: iterate over the characters of the
original word, deleting every occurrence of each punctuation character. -/
def stripPunct (w : List Char) : List Char :=
  w.foldl (fun cur c => if isPunct c then cur.filter (fun x => x != c) else cur) w

/-- String version of `stripPunct`. -/
def stripPunctStr (w : String) : String :=
  String.mk (stripPunct w.data)

/-- `document.lower()`: lowercase every character.  This is definitionally
a character-list map, proved below to agree with `String.toLower`. -/
def lowerStr (s : String) : String :=
  String.mk (s.data.map Char.toLower)

/-- `tokenize(document)`: lowercase the document, split it into words with
the word tokenizer `wordTok`, strip punctuation from each word, and keep
the words that are neither stopwords nor empty, in order. -/
def tokenize (wordTok : String → List String) (stopwords : List String)
    (document : String) : List String :=
  ((wordTok (lowerStr document)).map stripPunctStr).filter
    (fun w => decide (w ∉ stopwords) && decide (w ≠ ""))

/-! ### IDF calculator (`compute_idfs`) -/

/-- One step of the counting loop `if word not in allWords.keys():
allWords[word] = 1 else: allWords[word] += 1` on an association list. -/
def bump (acc : List (String × Nat)) (w : String) : List (String × Nat) :=
  if acc.any (fun p => p.1 == w) then
    acc.map (fun p => if p.1 == w then (p.1, p.2 + 1) else p)
  else
    acc ++ [(w, 1)]

/-- Value stored for key `w` in an association list, `0` if absent. -/
def getCount (acc : List (String × Nat)) (w : String) : Nat :=
  ((acc.find? (fun p => p.1 == w)).map Prod.snd).getD 0

/-- The `allWords` dictionary of `compute_idfs`: for each document take the
set of its words (`set(words)`, embedded as `dedup`) and count, for every
word, in how many documents it occurs. -/
def allWords (documents : List (String × List String)) : List (String × Nat) :=
  documents.foldl (fun acc d => d.2.dedup.foldl bump acc) []

/-- Number of documents whose token list contains `w`. -/
def docFreq (documents : List (String × List String)) (w : String) : Nat :=
  documents.countP (fun d => decide (w ∈ d.2))

/-- `compute_idfs(documents)`: map each word found in some document to
`log(totalDocuments / timesFound)`. -/
noncomputable def compute_idfs (documents : List (String × List String)) :
    List (String × ℝ) :=
  (allWords documents).map
    (fun p => (p.1, Real.log ((documents.length : ℝ) / (p.2 : ℝ))))

/-! ### Document ranker (`top_files`) -/

/-- Python dictionary lookup `idfs[word]` on an association list: `none`
models a fatal `KeyError`. -/
def idfLookup {α : Type} (idfs : List (String × α)) (w : String) : Option α :=
  (idfs.find? (fun p => p.1 == w)).map Prod.snd

/-- Total lookup used to state specification formulas (never applied to
absent keys in the places where it matters). -/
def idfGet {α : Type} [Zero α] (idfs : List (String × α)) (w : String) : α :=
  (idfLookup idfs w).getD 0

/-- The `wordScores` dictionary of `top_files`: occurrence counts, in the
document `words`, of the words that belong to the query. -/
def wordScoresOf (query : List String) (words : List String) : List (String × Nat) :=
  words.foldl (fun acc w => if w ∈ query then bump acc w else acc) []

/-- The `totalScore` loop of `top_files`: `totalScore += wordScores[word] *
idfs[word]`, aborting (`none`) on a missing IDF entry. -/
def totalScoreOf {α : Type} [LinearOrderedField α]
    (idfs : List (String × α)) (ws : List (String × Nat)) : Option α :=
  ws.foldl
    (fun acc p => acc.bind (fun s => (idfLookup idfs p.1).map (fun i => s + (p.2 : α) * i)))
    (some 0)

/-- The `for file, words in files.items()` loop: evaluate an optional
value for each entry in order, aborting at the first failure. -/
def mapOpt {β γ : Type} (f : β → Option γ) : List β → Option (List γ)
  | [] => some []
  | b :: bs => (f b).bind (fun c => (mapOpt f bs).map (fun cs => c :: cs))

/-- `top_files(query, files, idfs, n)`: score every file, sort the
`(file, score)` pairs by score descending (`insertionSort` here; Python's
`list.sort(reverse=True)` is also a stable sort, so it produces the same
list), and return the first `n` file names. -/
def top_files {α : Type} [LinearOrderedField α] (query : List String)
    (files : List (String × List String)) (idfs : List (String × α)) (n : Nat) :
    Option (List String) :=
  (mapOpt (fun fw => (totalScoreOf idfs (wordScoresOf query fw.2)).map (fun s => (fw.1, s))) files).map
    (fun scoresList =>
      ((scoresList.insertionSort (fun p q => q.2 ≤ p.2)).map Prod.fst).take n)

/-- The claimed document score: sum, over the distinct query words present
in the document, of raw occurrence count times IDF. -/
def fileScoreSpec {α : Type} [LinearOrderedField α] (query : List String)
    (idfs : List (String × α)) (ws : List String) : α :=
  ((ws.dedup.filter (fun w => decide (w ∈ query))).map
    (fun w => (ws.count w : α) * idfGet idfs w)).sum

/-! ### Sentence ranker (`top_sentences`) -/

/-- The `wordsFromQuery` loop: number of tokens of the sentence, repeats
included, that belong to the query. -/
def sentMatched (query : List String) (words : List String) : Nat :=
  words.countP (fun w => decide (w ∈ query))

/-- The `score` loop of `top_sentences`: sum of `idfs[word]` over the
distinct words of the sentence that belong to the query, aborting on a
missing IDF entry. -/
def sentIdfScore {α : Type} [LinearOrderedField α] (query : List String)
    (idfs : List (String × α)) (words : List String) : Option α :=
  words.dedup.foldl
    (fun acc w =>
      if w ∈ query then acc.bind (fun s => (idfLookup idfs w).map (fun i => s + i)) else acc)
    (some 0)

/-- `qTermDensity = wordsFromQuery / len(words)`: `none` models the
`ZeroDivisionError` on an empty token list. -/
def sentDensity {α : Type} [LinearOrderedField α] (query : List String)
    (words : List String) : Option α :=
  if words.length = 0 then none
  else some ((sentMatched query words : α) / (words.length : α))

/-- The claimed idf score of a sentence (total lookup form). -/
def sentScoreSpec {α : Type} [LinearOrderedField α] (query : List String)
    (idfs : List (String × α)) (ws : List String) : α :=
  ((ws.dedup.filter (fun w => decide (w ∈ query))).map (fun w => idfGet idfs w)).sum

/-- The claimed query-term density of a sentence. -/
def densitySpec {α : Type} [LinearOrderedField α] (query : List String)
    (ws : List String) : α :=
  (sentMatched query ws : α) / (ws.length : α)

/-- Python tuple comparison `(a, b) <= (c, d)` on pairs. -/
def pyLe {α : Type} [LinearOrderedField α] (x y : α × α) : Prop :=
  x.1 < y.1 ∨ (x.1 = y.1 ∧ x.2 ≤ y.2)

instance {α : Type} [LinearOrderedField α] (x y : α × α) : Decidable (pyLe x y) := by
  unfold pyLe; infer_instance

/-- `top_sentences(query, sentences, idfs, n)`: compute `(sentence,
idf score, density)` triples, sort them descending by the `(score,
density)` key pair (Python's stable sort with `reverse=True` on that key),
and return the first `n` sentence texts. -/
def top_sentences {α : Type} [LinearOrderedField α] (query : List String)
    (sentences : List (String × List String)) (idfs : List (String × α)) (n : Nat) :
    Option (List String) :=
  (mapOpt (fun sw =>
      (sentIdfScore query idfs sw.2).bind (fun sc =>
        (sentDensity query sw.2).map (fun d => (sw.1, sc, d)))) sentences).map
    (fun sentenceScores =>
      ((sentenceScores.insertionSort (fun p q => pyLe q.2 p.2)).map Prod.fst).take n)

/-! ### Sentence extraction in `main` -/

/-- Python dictionary assignment `d[k] = v` on an association list:
overwrite in place if the key exists, append otherwise. -/
def dictInsert (acc : List (String × List String)) (k : String) (v : List String) :
    List (String × List String) :=
  if acc.any (fun p => p.1 == k) then
    acc.map (fun p => if p.1 == k then (k, v) else p)
  else
    acc ++ [(k, v)]

/-- The sentence-collection loops of `main`: for every selected file's
text, for every passage (line) of it, for every sentence produced by the
sentence splitter, tokenize the sentence and record it only if its token
list is non-empty. -/
def buildSentences (sentSplit : String → List String) (tok : String → List String)
    (texts : List String) : List (String × List String) :=
  texts.foldl
    (fun acc text =>
      (text.splitOn "\n").foldl
        (fun acc2 passage =>
          (sentSplit passage).foldl
            (fun acc3 s =>
              let ts := tok s
              if ts ≠ [] then dictInsert acc3 s ts else acc3)
            acc2)
        acc)
    []

/-! ### Auxiliary definitions for statements and witnesses -/

/-- ASCII uppercase letters `A`–`Z`. -/
def isAsciiUpper (c : Char) : Bool :=
  65 ≤ c.toNat && c.toNat ≤ 90

/-- Accumulator-based whitespace splitter on character lists. -/
def wordsAux : List Char → List Char → List String
  | [], acc => if acc.isEmpty then [] else [String.mk acc.reverse]
  | c :: cs, acc =>
    if c = ' ' then
      (if acc.isEmpty then wordsAux cs [] else String.mk acc.reverse :: wordsAux cs [])
    else wordsAux cs (c :: acc)

/-- A concrete word-boundary splitter (whitespace splitting), used to
instantiate the external word tokenizer on concrete test inputs. -/
def splitWords (s : String) : List String :=
  wordsAux s.data []

/-! ### Lemmas about the tokenizer -/

theorem stripPunct_aux (cs : List Char) :
    ∀ cur : List Char,
      cs.foldl (fun cur c => if isPunct c then cur.filter (fun x => x != c) else cur) cur
        = cur.filter (fun x => !(isPunct x && decide (x ∈ cs))) := by
  induction cs with
  | nil => intro cur; simp
  | cons c cs ih =>
    intro cur
    rw [List.foldl_cons]
    by_cases hc : isPunct c = true
    · rw [if_pos hc, ih, List.filter_filter]
      apply List.filter_congr
      intro x _
      by_cases hx : x = c
      · subst hx; simp [hc]
      · simp [hx, List.mem_cons]
    · rw [if_neg hc, ih]
      apply List.filter_congr
      intro x _
      by_cases hx : x = c
      · subst hx
        simp only [Bool.not_eq_true] at hc
        simp [hc, List.mem_cons]
      · simp [hx, List.mem_cons]

theorem stripPunct_eq_filter (w : List Char) :
    stripPunct w = w.filter (fun x => !(isPunct x)) := by
  rw [stripPunct, stripPunct_aux]
  apply List.filter_congr
  intro x hx
  simp [hx]

theorem stripPunct_no_punct {w : List Char} {c : Char} (h : c ∈ stripPunct w) :
    isPunct c = false := by
  rw [stripPunct_eq_filter] at h
  have := List.of_mem_filter h
  simpa using this

theorem stripPunct_subset {w : List Char} {c : Char} (h : c ∈ stripPunct w) : c ∈ w := by
  rw [stripPunct_eq_filter] at h
  exact List.mem_of_mem_filter h

theorem stripPunct_of_no_punct {w : List Char} (h : ∀ c ∈ w, isPunct c = false) :
    stripPunct w = w := by
  rw [stripPunct_eq_filter]
  apply List.filter_eq_self.2
  intro c hc
  simp [h c hc]

/-- Membership in the tokenizer output: every surviving token is non-empty,
is not a stopword, and contains no ASCII punctuation character. -/
theorem mem_tokenize {wordTok : String → List String} {stopwords : List String}
    {document : String} {w : String} (h : w ∈ tokenize wordTok stopwords document) :
    w ≠ "" ∧ w ∉ stopwords ∧ (∀ c ∈ w.data, isPunct c = false) ∧
      ∃ w₀ ∈ wordTok (lowerStr document), w = stripPunctStr w₀ := by
  rw [tokenize] at h
  obtain ⟨hmem, hcond⟩ := List.mem_filter.1 h
  obtain ⟨w₀, hw₀, rfl⟩ := List.mem_map.1 hmem
  simp only [Bool.and_eq_true, decide_eq_true_eq] at hcond
  refine ⟨hcond.2, hcond.1, ?_, w₀, hw₀, rfl⟩
  intro c hc
  exact stripPunct_no_punct hc

theorem toNat_char_ofNat_valid {n : Nat} (h : n.isValidChar) :
    (Char.ofNat n).toNat = n := by
  rw [Char.ofNat, dif_pos h]
  rfl

theorem isAsciiUpper_toLower (c : Char) : isAsciiUpper c.toLower = false := by
  rw [Char.toLower]
  by_cases h : c.toNat ≥ 65 ∧ c.toNat ≤ 90
  · rw [if_pos h]
    have hv : (c.toNat + 32).isValidChar := Or.inl (by omega)
    rw [isAsciiUpper, toNat_char_ofNat_valid hv]
    simp only [Bool.and_eq_false_iff, decide_eq_false_iff_not]
    omega
  · rw [if_neg h]
    rw [isAsciiUpper]
    simp only [Bool.and_eq_false_iff, decide_eq_false_iff_not]
    omega

theorem toLower_of_punct {c : Char} (h : isPunct c = true) : c.toLower = c := by
  rw [Char.toLower, if_neg]
  rw [isPunct] at h
  simp only [Bool.or_eq_true, Bool.and_eq_true, decide_eq_true_eq] at h
  intro hc
  omega

theorem data_toLower (s : String) : s.toLower.data = s.data.map Char.toLower := by
  rw [String.toLower, String.map_eq]

/-- The character-list lowercasing used in `tokenize` agrees with the
library's `String.toLower`. -/
theorem lowerStr_eq_toLower (s : String) : lowerStr s = s.toLower := by
  apply String.ext
  rw [data_toLower]
  rfl

theorem data_lowerStr (s : String) : (lowerStr s).data = s.data.map Char.toLower := rfl

/-! ### Association-list counting lemmas -/

theorem find?_bumped_self (acc : List (String × Nat)) (w : String) :
    ((acc.map (fun p => if p.1 == w then (p.1, p.2 + 1) else p)).find? (fun p => p.1 == w))
      = (acc.find? (fun p => p.1 == w)).map (fun p => (p.1, p.2 + 1)) := by
  induction acc with
  | nil => rfl
  | cons a acc ih =>
    simp only [List.map_cons]
    by_cases ha : (a.1 == w) = true
    · rw [if_pos ha]
      simp [-List.find?_map, ha]
    · rw [if_neg ha]
      simpa [ha] using ih

theorem find?_bumped_ne (acc : List (String × Nat)) {v w : String} (h : v ≠ w) :
    ((acc.map (fun p => if p.1 == v then (p.1, p.2 + 1) else p)).find? (fun p => p.1 == w))
      = acc.find? (fun p => p.1 == w) := by
  induction acc with
  | nil => rfl
  | cons a acc ih =>
    simp only [List.map_cons]
    by_cases hav : (a.1 == v) = true
    · have haw : (a.1 == w) = false :=
        beq_eq_false_iff_ne.2 (by rw [beq_iff_eq.1 hav]; exact h)
      rw [if_pos hav]
      simpa [haw] using ih
    · rw [if_neg hav]
      by_cases haw : (a.1 == w) = true
      · simp [haw]
      · simpa [haw] using ih

theorem any_key_iff (acc : List (String × Nat)) (w : String) :
    acc.any (fun p => p.1 == w) = true ↔ w ∈ acc.map Prod.fst := by
  simp only [List.any_eq_true, beq_iff_eq, List.mem_map]

theorem getCount_bump_self (acc : List (String × Nat)) (w : String) :
    getCount (bump acc w) w = getCount acc w + 1 := by
  rw [bump]
  by_cases h : acc.any (fun p => p.1 == w) = true
  · rw [if_pos h, getCount, getCount, find?_bumped_self]
    cases hf : acc.find? (fun p => p.1 == w) with
    | none =>
      exfalso
      obtain ⟨p, hp, hpw⟩ := List.any_eq_true.1 h
      have := List.find?_eq_none.1 hf p hp
      exact this hpw
    | some p => simp
  · rw [if_neg h, getCount, getCount]
    have hf : acc.find? (fun p => p.1 == w) = none := by
      rw [List.find?_eq_none]
      intro p hp hpw
      exact h (List.any_eq_true.2 ⟨p, hp, hpw⟩)
    rw [List.find?_append, hf]
    simp [hf]

theorem getCount_bump_ne (acc : List (String × Nat)) {v w : String} (h : v ≠ w) :
    getCount (bump acc v) w = getCount acc w := by
  rw [bump]
  by_cases hv : acc.any (fun p => p.1 == v) = true
  · rw [if_pos hv, getCount, getCount, find?_bumped_ne acc h]
  · rw [if_neg hv, getCount, getCount, List.find?_append]
    have hone : ([(v, 1)].find? (fun p => p.1 == w)) = none := by
      rw [List.find?_singleton, if_neg]
      simpa using h
    cases hf : acc.find? (fun p => p.1 == w) <;> simp [hone, hf]

theorem keys_bump (acc : List (String × Nat)) (w : String) :
    (bump acc w).map Prod.fst =
      if w ∈ acc.map Prod.fst then acc.map Prod.fst else acc.map Prod.fst ++ [w] := by
  rw [bump]
  by_cases h : acc.any (fun p => p.1 == w) = true
  · rw [if_pos h, if_pos ((any_key_iff acc w).1 h), List.map_map]
    apply List.map_congr_left
    intro p _
    by_cases hp : p.1 = w <;> simp [hp]
  · rw [if_neg h, if_neg (fun hw => h ((any_key_iff acc w).2 hw))]
    simp

theorem mem_keys_bump {acc : List (String × Nat)} {v w : String} :
    v ∈ (bump acc w).map Prod.fst ↔ v ∈ acc.map Prod.fst ∨ v = w := by
  rw [keys_bump]
  by_cases h : w ∈ acc.map Prod.fst
  · rw [if_pos h]
    constructor
    · exact Or.inl
    · rintro (hv | rfl)
      · exact hv
      · exact h
  · rw [if_neg h]
    simp

theorem nodup_keys_bump {acc : List (String × Nat)} (h : (acc.map Prod.fst).Nodup)
    (w : String) : ((bump acc w).map Prod.fst).Nodup := by
  rw [keys_bump]
  by_cases hw : w ∈ acc.map Prod.fst
  · rwa [if_pos hw]
  · rw [if_neg hw, List.nodup_append]
    refine ⟨h, List.nodup_singleton w, ?_⟩
    intro a ha hamem
    rcases List.mem_singleton.1 hamem with rfl
    exact hw ha

theorem getCount_eq_of_mem {acc : List (String × Nat)} (hnd : (acc.map Prod.fst).Nodup)
    {p : String × Nat} (hp : p ∈ acc) : getCount acc p.1 = p.2 := by
  induction acc with
  | nil => cases hp
  | cons a acc ih =>
    rcases List.mem_cons.1 hp with rfl | hp'
    · rw [getCount, List.find?_cons, beq_self_eq_true]
      rfl
    · have hne : a.1 ≠ p.1 := by
        intro he
        have : p.1 ∈ acc.map Prod.fst := List.mem_map.2 ⟨p, hp', rfl⟩
        rw [List.map_cons] at hnd
        exact (List.nodup_cons.1 hnd).1 (he ▸ this)
      rw [getCount, List.find?_cons, beq_eq_false_iff_ne.2 hne]
      exact ih (List.nodup_cons.1 (List.map_cons Prod.fst a acc ▸ hnd)).2 hp'

theorem getCount_foldl_bump {ds : List String} (hnd : ds.Nodup) :
    ∀ acc w, getCount (ds.foldl bump acc) w
      = getCount acc w + (if w ∈ ds then 1 else 0) := by
  induction ds with
  | nil => intro acc w; simp
  | cons d ds ih =>
    intro acc w
    rw [List.foldl_cons, ih (List.nodup_cons.1 hnd).2]
    by_cases hw : w = d
    · subst hw
      rw [getCount_bump_self, if_neg (List.nodup_cons.1 hnd).1,
        if_pos (List.mem_cons_self w ds)]
    · rw [getCount_bump_ne acc (fun he => hw he.symm)]
      by_cases hds : w ∈ ds
      · rw [if_pos hds, if_pos (List.mem_cons_of_mem d hds)]
      · rw [if_neg hds, if_neg (fun hm => (List.mem_cons.1 hm).elim hw hds)]

theorem mem_keys_foldl_bump (ds : List String) :
    ∀ acc w, w ∈ (ds.foldl bump acc).map Prod.fst
      ↔ w ∈ acc.map Prod.fst ∨ w ∈ ds := by
  induction ds with
  | nil => intro acc w; simp
  | cons d ds ih =>
    intro acc w
    rw [List.foldl_cons, ih, mem_keys_bump, List.mem_cons]
    tauto

theorem nodup_keys_foldl_bump (ds : List String) :
    ∀ acc, (acc.map Prod.fst).Nodup → ((ds.foldl bump acc).map Prod.fst).Nodup := by
  induction ds with
  | nil => intro acc h; exact h
  | cons d ds ih =>
    intro acc h
    rw [List.foldl_cons]
    exact ih _ (nodup_keys_bump h d)

theorem getCount_allWords_aux (documents : List (String × List String)) :
    ∀ acc w, getCount (documents.foldl (fun acc d => d.2.dedup.foldl bump acc) acc) w
      = getCount acc w + docFreq documents w := by
  induction documents with
  | nil => intro acc w; simp [docFreq]
  | cons d docs ih =>
    intro acc w
    rw [List.foldl_cons, ih, getCount_foldl_bump (List.nodup_dedup d.2)]
    simp only [docFreq, List.countP_cons]
    by_cases hw : w ∈ d.2
    · simp only [List.mem_dedup, hw]
      simp
      omega
    · simp only [List.mem_dedup, hw]
      simp

theorem getCount_allWords (documents : List (String × List String)) (w : String) :
    getCount (allWords documents) w = docFreq documents w := by
  rw [allWords, getCount_allWords_aux]
  simp [getCount]

theorem mem_keys_allWords_aux (documents : List (String × List String)) :
    ∀ (acc : List (String × Nat)) (w : String),
      w ∈ (documents.foldl (fun acc d => d.2.dedup.foldl bump acc) acc).map Prod.fst
      ↔ w ∈ acc.map Prod.fst ∨ ∃ d ∈ documents, w ∈ d.2 := by
  induction documents with
  | nil => intro acc w; simp
  | cons d docs ih =>
    intro acc w
    rw [List.foldl_cons, ih, mem_keys_foldl_bump]
    simp only [List.mem_dedup, List.mem_cons]
    constructor
    · rintro ((h | h) | ⟨e, he, hwe⟩)
      · exact Or.inl h
      · exact Or.inr ⟨d, Or.inl rfl, h⟩
      · exact Or.inr ⟨e, Or.inr he, hwe⟩
    · rintro (h | ⟨e, (rfl | he), hwe⟩)
      · exact Or.inl (Or.inl h)
      · exact Or.inl (Or.inr hwe)
      · exact Or.inr ⟨e, he, hwe⟩

theorem mem_keys_allWords (documents : List (String × List String)) (w : String) :
    w ∈ (allWords documents).map Prod.fst ↔ ∃ d ∈ documents, w ∈ d.2 := by
  rw [allWords, mem_keys_allWords_aux]
  simp

theorem nodup_keys_allWords (documents : List (String × List String)) :
    ((allWords documents).map Prod.fst).Nodup := by
  rw [allWords]
  generalize hacc : ([] : List (String × Nat)) = acc
  have hnd : (acc.map Prod.fst).Nodup := by rw [← hacc]; exact List.nodup_nil
  clear hacc
  induction documents generalizing acc with
  | nil => exact hnd
  | cons d docs ih =>
    rw [List.foldl_cons]
    exact ih _ (nodup_keys_foldl_bump _ _ hnd)

/-! ### Characterization of `wordScoresOf` -/

theorem getCount_wordScoresOf_aux (query : List String) (ws : List String) :
    ∀ acc w, getCount (ws.foldl (fun acc w => if w ∈ query then bump acc w else acc) acc) w
      = getCount acc w + (if w ∈ query then ws.count w else 0) := by
  induction ws with
  | nil => intro acc w; simp
  | cons v vs ih =>
    intro acc w
    rw [List.foldl_cons]
    by_cases hv : v ∈ query
    · rw [if_pos hv, ih]
      by_cases hw : w = v
      · subst hw
        rw [getCount_bump_self, if_pos hv, if_pos hv, List.count_cons_self]
        omega
      · rw [getCount_bump_ne acc (fun he => hw he.symm)]
        by_cases hq : w ∈ query
        · rw [if_pos hq, if_pos hq, List.count_cons_of_ne hw]
        · rw [if_neg hq, if_neg hq]
    · rw [if_neg hv, ih]
      by_cases hq : w ∈ query
      · rw [if_pos hq, if_pos hq, List.count_cons_of_ne]
        intro he
        exact hv (he ▸ hq)
      · rw [if_neg hq, if_neg hq]

theorem getCount_wordScoresOf (query : List String) (ws : List String) (w : String) :
    getCount (wordScoresOf query ws) w = if w ∈ query then ws.count w else 0 := by
  rw [wordScoresOf, getCount_wordScoresOf_aux]
  simp [getCount]

theorem mem_keys_wordScoresOf_aux (query : List String) (ws : List String) :
    ∀ (acc : List (String × Nat)) (w : String),
      w ∈ (ws.foldl (fun acc w => if w ∈ query then bump acc w else acc) acc).map Prod.fst
      ↔ w ∈ acc.map Prod.fst ∨ (w ∈ ws ∧ w ∈ query) := by
  induction ws with
  | nil => intro acc w; simp
  | cons v vs ih =>
    intro acc w
    rw [List.foldl_cons]
    by_cases hv : v ∈ query
    · rw [if_pos hv, ih, mem_keys_bump]
      constructor
      · rintro ((h | rfl) | ⟨hm, hq⟩)
        · exact Or.inl h
        · exact Or.inr ⟨List.mem_cons_self w vs, hv⟩
        · exact Or.inr ⟨List.mem_cons_of_mem v hm, hq⟩
      · rintro (h | ⟨hm, hq⟩)
        · exact Or.inl (Or.inl h)
        · rcases List.mem_cons.1 hm with rfl | hm'
          · exact Or.inl (Or.inr rfl)
          · exact Or.inr ⟨hm', hq⟩
    · rw [if_neg hv, ih]
      constructor
      · rintro (h | ⟨hm, hq⟩)
        · exact Or.inl h
        · exact Or.inr ⟨List.mem_cons_of_mem v hm, hq⟩
      · rintro (h | ⟨hm, hq⟩)
        · exact Or.inl h
        · rcases List.mem_cons.1 hm with rfl | hm'
          · exact absurd hq hv
          · exact Or.inr ⟨hm', hq⟩

theorem mem_keys_wordScoresOf (query : List String) (ws : List String) (w : String) :
    w ∈ (wordScoresOf query ws).map Prod.fst ↔ w ∈ ws ∧ w ∈ query := by
  rw [wordScoresOf, mem_keys_wordScoresOf_aux]
  simp

theorem nodup_keys_wordScoresOf (query : List String) (ws : List String) :
    ((wordScoresOf query ws).map Prod.fst).Nodup := by
  rw [wordScoresOf]
  generalize hacc : ([] : List (String × Nat)) = acc
  have hnd : (acc.map Prod.fst).Nodup := by rw [← hacc]; exact List.nodup_nil
  clear hacc
  induction ws generalizing acc with
  | nil => exact hnd
  | cons v vs ih =>
    rw [List.foldl_cons]
    by_cases hv : v ∈ query
    · rw [if_pos hv]
      exact ih _ (nodup_keys_bump hnd v)
    · rw [if_neg hv]
      exact ih _ hnd

theorem snd_eq_count_of_mem_wordScoresOf {query ws : List String} {p : String × Nat}
    (hp : p ∈ wordScoresOf query ws) :
    p.2 = ws.count p.1 ∧ p.1 ∈ ws ∧ p.1 ∈ query := by
  have hkey : p.1 ∈ (wordScoresOf query ws).map Prod.fst := List.mem_map.2 ⟨p, hp, rfl⟩
  have hmem := (mem_keys_wordScoresOf query ws p.1).1 hkey
  have hcount := getCount_eq_of_mem (nodup_keys_wordScoresOf query ws) hp
  rw [getCount_wordScoresOf, if_pos hmem.2] at hcount
  exact ⟨hcount.symm, hmem⟩

theorem entry_allWords {documents : List (String × List String)} {p : String × Nat}
    (hp : p ∈ allWords documents) :
    p.2 = docFreq documents p.1 ∧ ∃ d ∈ documents, p.1 ∈ d.2 := by
  have hkey : p.1 ∈ (allWords documents).map Prod.fst := List.mem_map.2 ⟨p, hp, rfl⟩
  have hcount := getCount_eq_of_mem (nodup_keys_allWords documents) hp
  rw [getCount_allWords] at hcount
  exact ⟨hcount.symm, (mem_keys_allWords documents p.1).1 hkey⟩

theorem keys_compute_idfs (documents : List (String × List String)) :
    (compute_idfs documents).map Prod.fst = (allWords documents).map Prod.fst := by
  rw [compute_idfs, List.map_map]
  rfl

/-! ### Claim theorems for the IDF calculator -/

/-- Claim C3: for every mapping of document identifiers to token lists, the keys
of `compute_idfs` are exactly the words appearing in at least one document
(with exactly one entry each), every value equals the natural log of the
document count divided by the word's document frequency, document
frequency is between 1 and the document count, every value is
non-negative, and a value is 0 exactly when its word appears in every
document. -/
theorem compute_idfs_spec (documents : List (String × List String)) :
    ((compute_idfs documents).map Prod.fst).Nodup
    ∧ (∀ w : String, w ∈ (compute_idfs documents).map Prod.fst ↔ ∃ d ∈ documents, w ∈ d.2)
    ∧ ∀ p ∈ compute_idfs documents,
        p.2 = Real.log ((documents.length : ℝ) / (docFreq documents p.1 : ℝ))
        ∧ 1 ≤ docFreq documents p.1 ∧ docFreq documents p.1 ≤ documents.length
        ∧ 0 ≤ p.2
        ∧ (p.2 = 0 ↔ ∀ d ∈ documents, p.1 ∈ d.2) := by
  refine ⟨?_, ?_, ?_⟩
  · rw [keys_compute_idfs]
    exact nodup_keys_allWords documents
  · intro w
    rw [keys_compute_idfs]
    exact mem_keys_allWords documents w
  · intro p hp
    rw [compute_idfs] at hp
    obtain ⟨q, hq, rfl⟩ := List.mem_map.1 hp
    obtain ⟨hval, d, hd, hwd⟩ := entry_allWords hq
    simp only [hval]
    have hdf1 : 1 ≤ docFreq documents q.1 := by
      rw [docFreq]
      exact List.countP_pos_iff.2 ⟨d, hd, by simpa using hwd⟩
    have hdfN : docFreq documents q.1 ≤ documents.length := List.countP_le_length _
    have hdfpos : (0 : ℝ) < (docFreq documents q.1 : ℝ) := by
      exact_mod_cast hdf1
    have hone : (1 : ℝ) ≤ (documents.length : ℝ) / (docFreq documents q.1 : ℝ) := by
      rw [one_le_div hdfpos]
      exact_mod_cast hdfN
    refine ⟨trivial, hdf1, hdfN, Real.log_nonneg hone, ?_⟩
    constructor
    · intro hlog
      rcases Real.log_eq_zero.1 hlog with hx | hx | hx
      · rw [hx] at hone; norm_num at hone
      · have hNdf : (documents.length : ℝ) = (docFreq documents q.1 : ℝ) :=
          (div_eq_one_iff_eq (ne_of_gt hdfpos)).1 hx
        have : docFreq documents q.1 = documents.length := by exact_mod_cast hNdf.symm
        rw [docFreq] at this
        have hall := List.countP_eq_length.1 this
        intro e he
        simpa using hall e he
      · rw [hx] at hone; norm_num at hone
    · intro hall
      have : docFreq documents q.1 = documents.length := by
        rw [docFreq]
        exact List.countP_eq_length.2 (fun e he => by simpa using hall e he)
      have hNne : (documents.length : ℝ) ≠ 0 := by
        have hN1 : 1 ≤ documents.length := le_trans hdf1 hdfN
        exact_mod_cast Nat.pos_iff_ne_zero.1 hN1
      rw [this, div_self hNne]
      exact Real.log_one

/-- Claim C9: `compute_idfs` of the empty corpus is the empty mapping; no
division or logarithm is evaluated on the way. -/
theorem compute_idfs_empty : compute_idfs [] = [] := rfl

/-! ### Option-valued fold lemmas -/

theorem mapOpt_eq_none_iff {β γ : Type} (f : β → Option γ) (l : List β) :
    mapOpt f l = none ↔ ∃ b ∈ l, f b = none := by
  induction l with
  | nil => simp [mapOpt]
  | cons b bs ih =>
    rw [mapOpt]
    cases hfb : f b with
    | none => simp [hfb]
    | some c =>
      simp [hfb, ih]

theorem mapOpt_eq_some_of_forall {β γ : Type} {f : β → Option γ} {g : β → γ} :
    ∀ {l : List β}, (∀ b ∈ l, f b = some (g b)) → mapOpt f l = some (l.map g) := by
  intro l
  induction l with
  | nil => intro _; rfl
  | cons b bs ih =>
    intro h
    rw [mapOpt, h b (List.mem_cons_self b bs), ih (fun x hx => h x (List.mem_cons_of_mem b hx))]
    rfl

theorem mapOpt_forall₂ {β γ : Type} {f : β → Option γ} :
    ∀ {l : List β} {ys : List γ}, mapOpt f l = some ys →
      List.Forall₂ (fun b c => f b = some c) l ys := by
  intro l
  induction l with
  | nil =>
    intro ys h
    rw [mapOpt] at h
    cases h
    exact List.Forall₂.nil
  | cons b bs ih =>
    intro ys h
    rw [mapOpt] at h
    cases hfb : f b with
    | none => rw [hfb] at h; cases h
    | some c =>
      rw [hfb] at h
      cases hbs : mapOpt f bs with
      | none => rw [hbs] at h; cases h
      | some cs =>
        rw [hbs] at h
        cases h
        exact List.Forall₂.cons hfb (ih hbs)

theorem totalScoreOf_foldl_none {α : Type} [LinearOrderedField α]
    (idfs : List (String × α)) (l : List (String × Nat)) :
    ∀ o : Option α,
      l.foldl (fun acc p =>
          acc.bind (fun s => (idfLookup idfs p.1).map (fun i => s + (p.2 : α) * i))) o = none
      ↔ o = none ∨ ∃ p ∈ l, idfLookup idfs p.1 = none := by
  induction l with
  | nil => intro o; simp
  | cons p l ih =>
    intro o
    rw [List.foldl_cons, ih]
    cases o with
    | none => simp
    | some s =>
      cases hl : idfLookup idfs p.1 with
      | none => simp [hl]
      | some i => simp [hl]

theorem totalScoreOf_eq_none_iff {α : Type} [LinearOrderedField α]
    (idfs : List (String × α)) (l : List (String × Nat)) :
    totalScoreOf idfs l = none ↔ ∃ p ∈ l, idfLookup idfs p.1 = none := by
  rw [totalScoreOf, totalScoreOf_foldl_none]
  simp

theorem totalScoreOf_foldl_some {α : Type} [LinearOrderedField α]
    {idfs : List (String × α)} {l : List (String × Nat)}
    (hcov : ∀ p ∈ l, (idfLookup idfs p.1).isSome) :
    ∀ v : α,
      l.foldl (fun acc p =>
          acc.bind (fun s => (idfLookup idfs p.1).map (fun i => s + (p.2 : α) * i))) (some v)
      = some (v + ((l.map (fun p => (p.2 : α) * idfGet idfs p.1)).sum)) := by
  induction l with
  | nil => intro v; simp
  | cons p l ih =>
    intro v
    rw [List.foldl_cons]
    cases hl : idfLookup idfs p.1 with
    | none =>
      exfalso
      have := hcov p (List.mem_cons_self p l)
      rw [hl] at this
      cases this
    | some i =>
      simp only [Option.some_bind, hl, Option.map_some']
      rw [ih (fun q hq => hcov q (List.mem_cons_of_mem p hq))]
      rw [List.map_cons, List.sum_cons, idfGet, idfLookup] at *
      rw [hl]
      simp [add_assoc]

theorem totalScoreOf_eq_some {α : Type} [LinearOrderedField α]
    {idfs : List (String × α)} {l : List (String × Nat)}
    (hcov : ∀ p ∈ l, (idfLookup idfs p.1).isSome) :
    totalScoreOf idfs l = some ((l.map (fun p => (p.2 : α) * idfGet idfs p.1)).sum) := by
  rw [totalScoreOf, totalScoreOf_foldl_some hcov]
  simp

theorem sentIdfScore_foldl_none {α : Type} [LinearOrderedField α]
    (query : List String) (idfs : List (String × α)) (l : List String) :
    ∀ o : Option α,
      l.foldl (fun acc w =>
          if w ∈ query then acc.bind (fun s => (idfLookup idfs w).map (fun i => s + i)) else acc) o
        = none
      ↔ o = none ∨ ∃ w ∈ l, w ∈ query ∧ idfLookup idfs w = none := by
  induction l with
  | nil => intro o; simp
  | cons w l ih =>
    intro o
    rw [List.foldl_cons, ih]
    by_cases hw : w ∈ query
    · rw [if_pos hw]
      cases o with
      | none => simp
      | some s =>
        cases hl : idfLookup idfs w with
        | none => simp [hl, hw]
        | some i => simp [hl, hw]
    · rw [if_neg hw]
      constructor
      · rintro (h | ⟨v, hv, hvq, hvl⟩)
        · exact Or.inl h
        · exact Or.inr ⟨v, List.mem_cons_of_mem w hv, hvq, hvl⟩
      · rintro (h | ⟨v, hv, hvq, hvl⟩)
        · exact Or.inl h
        · rcases List.mem_cons.1 hv with rfl | hv'
          · exact absurd hvq hw
          · exact Or.inr ⟨v, hv', hvq, hvl⟩

theorem sentIdfScore_eq_none_iff {α : Type} [LinearOrderedField α]
    (query : List String) (idfs : List (String × α)) (words : List String) :
    sentIdfScore query idfs words = none
      ↔ ∃ w ∈ words.dedup, w ∈ query ∧ idfLookup idfs w = none := by
  rw [sentIdfScore, sentIdfScore_foldl_none]
  simp

theorem sentIdfScore_foldl_some {α : Type} [LinearOrderedField α]
    {query : List String} {idfs : List (String × α)} {l : List String}
    (hcov : ∀ w ∈ l, w ∈ query → (idfLookup idfs w).isSome) :
    ∀ v : α,
      l.foldl (fun acc w =>
          if w ∈ query then acc.bind (fun s => (idfLookup idfs w).map (fun i => s + i)) else acc)
        (some v)
      = some (v + ((l.filter (fun w => decide (w ∈ query))).map (fun w => idfGet idfs w)).sum) := by
  induction l with
  | nil => intro v; simp
  | cons w l ih =>
    intro v
    rw [List.foldl_cons]
    by_cases hw : w ∈ query
    · rw [if_pos hw]
      cases hl : idfLookup idfs w with
      | none =>
        exfalso
        have := hcov w (List.mem_cons_self w l) hw
        rw [hl] at this
        cases this
      | some i =>
        simp only [Option.some_bind, hl, Option.map_some']
        rw [ih (fun x hx hxq => hcov x (List.mem_cons_of_mem w hx) hxq)]
        rw [List.filter_cons_of_pos (by simpa using hw), List.map_cons, List.sum_cons]
        rw [idfGet, idfLookup] at *
        rw [hl]
        simp [add_assoc]
    · rw [if_neg hw, ih (fun x hx hxq => hcov x (List.mem_cons_of_mem w hx) hxq),
        List.filter_cons_of_neg (by simpa using hw)]

theorem sentIdfScore_eq_some {α : Type} [LinearOrderedField α]
    {query : List String} {idfs : List (String × α)} {words : List String}
    (hcov : ∀ w ∈ words.dedup, w ∈ query → (idfLookup idfs w).isSome) :
    sentIdfScore query idfs words = some (sentScoreSpec query idfs words) := by
  rw [sentIdfScore, sentIdfScore_foldl_some hcov, sentScoreSpec]
  simp

/-! ### Linking the computed file score to the claimed formula -/

theorem value_eq_of_nodup_keys {β : Type} {l : List (String × β)}
    (h : (l.map Prod.fst).Nodup) {k : String} {a b : β}
    (ha : (k, a) ∈ l) (hb : (k, b) ∈ l) : a = b := by
  induction l with
  | nil => cases ha
  | cons c l ih =>
    rw [List.map_cons, List.nodup_cons] at h
    rcases List.mem_cons.1 ha with rfl | ha'
    · rcases List.mem_cons.1 hb with he | hb'
      · exact congrArg Prod.snd he.symm
      · exact absurd (List.mem_map.2 ⟨(k, b), hb', rfl⟩) h.1
    · rcases List.mem_cons.1 hb with rfl | hb'
      · exact absurd (List.mem_map.2 ⟨(k, a), ha', rfl⟩) h.1
      · exact ih h.2 ha' hb'

theorem totalScore_wordScores_eq_spec {α : Type} [LinearOrderedField α]
    {query : List String} {idfs : List (String × α)} {ws : List String}
    (hcov : ∀ w ∈ ws, w ∈ query → (idfLookup idfs w).isSome) :
    totalScoreOf idfs (wordScoresOf query ws) = some (fileScoreSpec query idfs ws) := by
  have hcov' : ∀ p ∈ wordScoresOf query ws, (idfLookup idfs p.1).isSome := by
    intro p hp
    obtain ⟨_, hmem, hq⟩ := snd_eq_count_of_mem_wordScoresOf hp
    exact hcov p.1 hmem hq
  rw [totalScoreOf_eq_some hcov']
  congr 1
  have hmapeq : (wordScoresOf query ws).map (fun p => (p.2 : α) * idfGet idfs p.1)
      = ((wordScoresOf query ws).map Prod.fst).map
          (fun w => (ws.count w : α) * idfGet idfs w) := by
    rw [List.map_map]
    apply List.map_congr_left
    intro p hp
    obtain ⟨hcount, _, _⟩ := snd_eq_count_of_mem_wordScoresOf hp
    simp only [Function.comp_apply, hcount]
  rw [hmapeq]
  have hperm : ((wordScoresOf query ws).map Prod.fst).Perm
      (ws.dedup.filter (fun w => decide (w ∈ query))) := by
    apply List.Subperm.antisymm
    · apply List.Nodup.subperm (nodup_keys_wordScoresOf query ws)
      intro w hw
      obtain ⟨hmem, hq⟩ := (mem_keys_wordScoresOf query ws w).1 hw
      exact List.mem_filter.2 ⟨List.mem_dedup.2 hmem, by simpa using hq⟩
    · apply List.Nodup.subperm ((List.nodup_dedup ws).filter _)
      intro w hw
      obtain ⟨hmem, hq⟩ := List.mem_filter.1 hw
      exact (mem_keys_wordScoresOf query ws w).2
        ⟨List.mem_dedup.1 hmem, by simpa using hq⟩
  exact (hperm.map _).sum_eq

theorem top_files_scored {α : Type} [LinearOrderedField α]
    {query : List String} {files : List (String × List String)} {idfs : List (String × α)}
    (hcov : ∀ fw ∈ files, ∀ w ∈ fw.2, w ∈ query → (idfLookup idfs w).isSome) :
    mapOpt (fun fw => (totalScoreOf idfs (wordScoresOf query fw.2)).map (fun s => (fw.1, s))) files
      = some (files.map (fun fw => (fw.1, fileScoreSpec query idfs fw.2))) := by
  apply mapOpt_eq_some_of_forall
  intro fw hfw
  rw [totalScore_wordScores_eq_spec (hcov fw hfw)]
  rfl

/-! ### Claim theorems for the document ranker -/

/-- Claim C2: under the preconditions that the file mapping has distinct keys and
the IDF table covers every query word occurring in some file, `top_files`
succeeds, assigns every document the score
Σ (count of query word in document) × IDF(word) over the distinct query
words present (words outside the query contribute nothing, which the
filtered sum makes explicit), and its output is ordered by this score
descending. -/
theorem top_files_spec {α : Type} [LinearOrderedField α] (query : List String)
    (files : List (String × List String)) (idfs : List (String × α)) (n : Nat)
    (hn : 1 ≤ n) (hnodup : (files.map Prod.fst).Nodup)
    (hcov : ∀ fw ∈ files, ∀ w ∈ fw.2, w ∈ query → (idfLookup idfs w).isSome) :
    ∃ out, top_files query files idfs n = some out
      ∧ (∀ fw ∈ files,
          totalScoreOf idfs (wordScoresOf query fw.2) = some (fileScoreSpec query idfs fw.2))
      ∧ out.Pairwise (fun a b => ∀ wsa wsb, (a, wsa) ∈ files → (b, wsb) ∈ files →
          fileScoreSpec query idfs wsb ≤ fileScoreSpec query idfs wsa) := by
  have hscored := top_files_scored hcov
  refine ⟨(((files.map (fun fw => (fw.1, fileScoreSpec query idfs fw.2))).insertionSort
      (fun p q => q.2 ≤ p.2)).map Prod.fst).take n,
    by rw [top_files, hscored]; rfl,
    fun fw hfw => totalScore_wordScores_eq_spec (hcov fw hfw), ?_⟩
  haveI htot : IsTotal (String × α) (fun p q => q.2 ≤ p.2) := ⟨fun a b => le_total b.2 a.2⟩
  haveI htra : IsTrans (String × α) (fun p q => q.2 ≤ p.2) :=
    ⟨fun a b c hab hbc => le_trans hbc hab⟩
  have hsorted : ((files.map (fun fw => (fw.1, fileScoreSpec query idfs fw.2))).insertionSort
      (fun p q => q.2 ≤ p.2)).Pairwise (fun p q => q.2 ≤ p.2) :=
    List.sorted_insertionSort _ _
  have htake := List.Pairwise.sublist (List.take_sublist n _) hsorted
  rw [← List.map_take]
  apply List.pairwise_map.2
  apply List.Pairwise.imp_of_mem ?_ htake
  intro p q hp hq hle
  intro wsa wsb hwa hwb
  have hpin : p ∈ files.map (fun fw => (fw.1, fileScoreSpec query idfs fw.2)) :=
    (List.perm_insertionSort (fun p q : String × α => q.2 ≤ p.2) _).mem_iff.1
      ((List.take_sublist n _).subset hp)
  have hqin : q ∈ files.map (fun fw => (fw.1, fileScoreSpec query idfs fw.2)) :=
    (List.perm_insertionSort (fun p q : String × α => q.2 ≤ p.2) _).mem_iff.1
      ((List.take_sublist n _).subset hq)
  obtain ⟨fp, hfp, hfpe⟩ := List.mem_map.1 hpin
  obtain ⟨fq, hfq, hfqe⟩ := List.mem_map.1 hqin
  have hfp1 : p.1 = fp.1 := by rw [← hfpe]
  have hfq1 : q.1 = fq.1 := by rw [← hfqe]
  have hwsa : wsa = fp.2 := by
    apply value_eq_of_nodup_keys hnodup (hfp1 ▸ hwa)
    rw [← Prod.mk.eta (p := fp)] at hfp
    exact hfp
  have hwsb : wsb = fq.2 := by
    apply value_eq_of_nodup_keys hnodup (hfq1 ▸ hwb)
    rw [← Prod.mk.eta (p := fq)] at hfq
    exact hfq
  have hp2 : p.2 = fileScoreSpec query idfs fp.2 := by rw [← hfpe]
  have hq2 : q.2 = fileScoreSpec query idfs fq.2 := by rw [← hfqe]
  rw [hwsa, hwsb, ← hp2, ← hq2]
  exact hle

/-- Concrete instance of `top_files_spec` at `α = ℚ`. -/
theorem top_files_spec_witness :
    ∃ out, top_files ["cat"] [("a", ["cat"]), ("b", ["dog"])]
        ([("cat", 2), ("dog", 3)] : List (String × ℚ)) 1 = some out
      ∧ (∀ fw ∈ [("a", ["cat"]), ("b", ["dog"])],
          totalScoreOf ([("cat", 2), ("dog", 3)] : List (String × ℚ)) (wordScoresOf ["cat"] fw.2)
            = some (fileScoreSpec ["cat"] ([("cat", 2), ("dog", 3)] : List (String × ℚ)) fw.2))
      ∧ out.Pairwise (fun a b => ∀ wsa wsb,
          (a, wsa) ∈ [("a", ["cat"]), ("b", ["dog"])] →
          (b, wsb) ∈ [("a", ["cat"]), ("b", ["dog"])] →
          fileScoreSpec ["cat"] ([("cat", 2), ("dog", 3)] : List (String × ℚ)) wsb
            ≤ fileScoreSpec ["cat"] ([("cat", 2), ("dog", 3)] : List (String × ℚ)) wsa) :=
  top_files_spec ["cat"] [("a", ["cat"]), ("b", ["dog"])]
    ([("cat", 2), ("dog", 3)] : List (String × ℚ)) 1
    (by decide) (by decide) (by decide)

/-- Claim C6: `top_files` fails (with a `KeyError`, modelled as `none`) exactly
when some query word occurs (hence with nonzero count) in some file's
token list yet has no entry in the IDF table.  In particular a query word
absent from every file never causes an error, and the failure-free
condition is exactly that the IDF table covers the query vocabulary
appearing in the files. -/
theorem top_files_keyerror_iff {α : Type} [LinearOrderedField α] (query : List String)
    (files : List (String × List String)) (idfs : List (String × α)) (n : Nat) :
    top_files query files idfs n = none
      ↔ ∃ fw ∈ files, ∃ w ∈ fw.2, w ∈ query ∧ idfLookup idfs w = none := by
  rw [top_files, Option.map_eq_none', mapOpt_eq_none_iff]
  constructor
  · rintro ⟨fw, hfw, hnone⟩
    rw [Option.map_eq_none', totalScoreOf_eq_none_iff] at hnone
    obtain ⟨p, hp, hlook⟩ := hnone
    obtain ⟨_, hmem, hq⟩ := snd_eq_count_of_mem_wordScoresOf hp
    exact ⟨fw, hfw, p.1, hmem, hq, hlook⟩
  · rintro ⟨fw, hfw, w, hmem, hq, hlook⟩
    refine ⟨fw, hfw, ?_⟩
    rw [Option.map_eq_none', totalScoreOf_eq_none_iff]
    have hkey : w ∈ (wordScoresOf query fw.2).map Prod.fst :=
      (mem_keys_wordScoresOf query fw.2 w).2 ⟨hmem, hq⟩
    obtain ⟨p, hp, hpw⟩ := List.mem_map.1 hkey
    exact ⟨p, hp, hpw ▸ hlook⟩

/-! ### Claim theorems for the sentence ranker -/

theorem pyLe_total {α : Type} [LinearOrderedField α] (x y : α × α) :
    pyLe x y ∨ pyLe y x := by
  rcases lt_trichotomy x.1 y.1 with h | h | h
  · exact Or.inl (Or.inl h)
  · rcases le_total x.2 y.2 with h2 | h2
    · exact Or.inl (Or.inr ⟨h, h2⟩)
    · exact Or.inr (Or.inr ⟨h.symm, h2⟩)
  · exact Or.inr (Or.inl h)

theorem pyLe_trans {α : Type} [LinearOrderedField α] {x y z : α × α}
    (h1 : pyLe x y) (h2 : pyLe y z) : pyLe x z := by
  rcases h1 with h1 | ⟨e1, d1⟩
  · rcases h2 with h2 | ⟨e2, d2⟩
    · exact Or.inl (lt_trans h1 h2)
    · exact Or.inl (e2 ▸ h1)
  · rcases h2 with h2 | ⟨e2, d2⟩
    · exact Or.inl (e1 ▸ h2)
    · exact Or.inr ⟨e1.trans e2, le_trans d1 d2⟩

theorem sentDensity_eq_some {α : Type} [LinearOrderedField α]
    {query : List String} {words : List String} (hne : words ≠ []) :
    sentDensity (α := α) query words = some (densitySpec (α := α) query words) := by
  rw [sentDensity, if_neg (fun h => hne (List.length_eq_zero.1 h))]
  rfl

theorem top_sentences_scored {α : Type} [LinearOrderedField α]
    {query : List String} {sentences : List (String × List String)} {idfs : List (String × α)}
    (hne : ∀ sw ∈ sentences, sw.2 ≠ [])
    (hcov : ∀ sw ∈ sentences, ∀ w ∈ sw.2, w ∈ query → (idfLookup idfs w).isSome) :
    mapOpt (fun sw =>
        (sentIdfScore query idfs sw.2).bind (fun sc =>
          (sentDensity query sw.2).map (fun d => (sw.1, sc, d)))) sentences
      = some (sentences.map
          (fun sw => (sw.1, sentScoreSpec query idfs sw.2, densitySpec (α := α) query sw.2))) := by
  apply mapOpt_eq_some_of_forall
  intro sw hsw
  have hcov' : ∀ w ∈ sw.2.dedup, w ∈ query → (idfLookup idfs w).isSome := by
    intro w hw hq
    exact hcov sw hsw w (List.mem_dedup.1 hw) hq
  rw [sentIdfScore_eq_some hcov', Option.some_bind, sentDensity_eq_some (hne sw hsw)]
  rfl

/-- Claim C1: under the preconditions that the sentence mapping has distinct
keys and non-empty token lists and that the IDF table covers the query
words occurring in them, `top_sentences` succeeds and its output is
ordered by idf score descending with density descending as the tie-break:
whenever sentence `a` precedes sentence `b` in the output, `b`'s idf score
is strictly smaller than `a`'s, or the scores are equal and `b`'s density
is at most `a`'s. -/
theorem top_sentences_spec {α : Type} [LinearOrderedField α] (query : List String)
    (sentences : List (String × List String)) (idfs : List (String × α)) (n : Nat)
    (hn : 1 ≤ n) (hnodup : (sentences.map Prod.fst).Nodup)
    (hne : ∀ sw ∈ sentences, sw.2 ≠ [])
    (hcov : ∀ sw ∈ sentences, ∀ w ∈ sw.2, w ∈ query → (idfLookup idfs w).isSome) :
    ∃ out, top_sentences query sentences idfs n = some out
      ∧ out.Pairwise (fun a b => ∀ wsa wsb, (a, wsa) ∈ sentences → (b, wsb) ∈ sentences →
          sentScoreSpec query idfs wsb < sentScoreSpec query idfs wsa
          ∨ (sentScoreSpec query idfs wsb = sentScoreSpec query idfs wsa
              ∧ densitySpec (α := α) query wsb ≤ densitySpec query wsa)) := by
  have hscored := top_sentences_scored hne hcov
  refine ⟨(((sentences.map
        (fun sw => (sw.1, sentScoreSpec query idfs sw.2, densitySpec query sw.2))).insertionSort
      (fun p q => pyLe q.2 p.2)).map Prod.fst).take n,
    by rw [top_sentences, hscored]; rfl, ?_⟩
  haveI htot : IsTotal (String × α × α) (fun p q => pyLe q.2 p.2) :=
    ⟨fun a b => pyLe_total b.2 a.2⟩
  haveI htra : IsTrans (String × α × α) (fun p q => pyLe q.2 p.2) :=
    ⟨fun a b c hab hbc => pyLe_trans hbc hab⟩
  have hsorted : ((sentences.map
      (fun sw => (sw.1, sentScoreSpec query idfs sw.2, densitySpec query sw.2))).insertionSort
      (fun p q => pyLe q.2 p.2)).Pairwise (fun p q => pyLe q.2 p.2) :=
    List.sorted_insertionSort _ _
  have htake := List.Pairwise.sublist (List.take_sublist n _) hsorted
  rw [← List.map_take]
  apply List.pairwise_map.2
  apply List.Pairwise.imp_of_mem ?_ htake
  intro p q hp hq hle
  intro wsa wsb hwa hwb
  have hpin : p ∈ sentences.map
      (fun sw => (sw.1, sentScoreSpec query idfs sw.2, densitySpec query sw.2)) :=
    (List.perm_insertionSort (fun p q : String × α × α => pyLe q.2 p.2) _).mem_iff.1
      ((List.take_sublist n _).subset hp)
  have hqin : q ∈ sentences.map
      (fun sw => (sw.1, sentScoreSpec query idfs sw.2, densitySpec query sw.2)) :=
    (List.perm_insertionSort (fun p q : String × α × α => pyLe q.2 p.2) _).mem_iff.1
      ((List.take_sublist n _).subset hq)
  obtain ⟨sp, hsp, hspe⟩ := List.mem_map.1 hpin
  obtain ⟨sq, hsq, hsqe⟩ := List.mem_map.1 hqin
  have hsp1 : p.1 = sp.1 := by rw [← hspe]
  have hsq1 : q.1 = sq.1 := by rw [← hsqe]
  have hwsa : wsa = sp.2 := by
    apply value_eq_of_nodup_keys hnodup (hsp1 ▸ hwa)
    rw [← Prod.mk.eta (p := sp)] at hsp
    exact hsp
  have hwsb : wsb = sq.2 := by
    apply value_eq_of_nodup_keys hnodup (hsq1 ▸ hwb)
    rw [← Prod.mk.eta (p := sq)] at hsq
    exact hsq
  have hp2 : p.2 = (sentScoreSpec query idfs sp.2, densitySpec query sp.2) := by rw [← hspe]
  have hq2 : q.2 = (sentScoreSpec query idfs sq.2, densitySpec query sq.2) := by rw [← hsqe]
  rw [hp2, hq2] at hle
  rw [hwsa, hwsb]
  exact hle

/-- Concrete instance of `top_sentences_spec` at `α = ℚ`. -/
theorem top_sentences_spec_witness :
    ∃ out, top_sentences ["cat"] [("s one", ["cat", "mat"]), ("s two", ["cat"])]
        ([("cat", 1), ("mat", 2)] : List (String × ℚ)) 2 = some out
      ∧ out.Pairwise (fun a b => ∀ wsa wsb,
          (a, wsa) ∈ [("s one", ["cat", "mat"]), ("s two", ["cat"])] →
          (b, wsb) ∈ [("s one", ["cat", "mat"]), ("s two", ["cat"])] →
          sentScoreSpec ["cat"] ([("cat", 1), ("mat", 2)] : List (String × ℚ)) wsb
              < sentScoreSpec ["cat"] ([("cat", 1), ("mat", 2)] : List (String × ℚ)) wsa
          ∨ (sentScoreSpec ["cat"] ([("cat", 1), ("mat", 2)] : List (String × ℚ)) wsb
              = sentScoreSpec ["cat"] ([("cat", 1), ("mat", 2)] : List (String × ℚ)) wsa
              ∧ densitySpec ["cat"] wsb ≤ densitySpec (α := ℚ) ["cat"] wsa)) :=
  top_sentences_spec ["cat"] [("s one", ["cat", "mat"]), ("s two", ["cat"])]
    ([("cat", 1), ("mat", 2)] : List (String × ℚ)) 2
    (by decide) (by decide) (by decide) (by decide)

/-! ### Output length (truncation) -/

/-- Claim C5: for every `n ≥ 1`, when they succeed, `top_files` and
`top_sentences` return exactly `min n (number of entries)` results: if `n`
exceeds the number of documents or sentences, all of them are returned,
with no padding and no error. -/
theorem top_lengths {α : Type} [LinearOrderedField α]
    (query₁ query₂ : List String) (files sentences : List (String × List String))
    (idfs₁ idfs₂ : List (String × α)) (n : Nat) (hn : 1 ≤ n)
    (hcovF : ∀ fw ∈ files, ∀ w ∈ fw.2, w ∈ query₁ → (idfLookup idfs₁ w).isSome)
    (hne : ∀ sw ∈ sentences, sw.2 ≠ [])
    (hcovS : ∀ sw ∈ sentences, ∀ w ∈ sw.2, w ∈ query₂ → (idfLookup idfs₂ w).isSome) :
    (∃ out, top_files query₁ files idfs₁ n = some out ∧ out.length = min n files.length)
    ∧ (∃ out, top_sentences query₂ sentences idfs₂ n = some out
        ∧ out.length = min n sentences.length) := by
  constructor
  · refine ⟨_, by rw [top_files, top_files_scored hcovF]; rfl, ?_⟩
    rw [List.length_take, List.length_map,
      (List.perm_insertionSort (fun p q : String × α => q.2 ≤ p.2) _).length_eq,
      List.length_map]
  · refine ⟨_, by rw [top_sentences, top_sentences_scored hne hcovS]; rfl, ?_⟩
    rw [List.length_take, List.length_map,
      (List.perm_insertionSort (fun p q : String × α × α => pyLe q.2 p.2) _).length_eq,
      List.length_map]

/-- Concrete instance of `top_lengths` at `α = ℚ`: `n = 3` exceeds both
entry counts, so both rankers return everything. -/
theorem top_lengths_witness :
    (∃ out, top_files ["zzz"] [("a", ["x"]), ("b", ["y"])]
        ([] : List (String × ℚ)) 3 = some out ∧ out.length = min 3 2)
    ∧ (∃ out, top_sentences ["z"] [("s", ["a"])] ([] : List (String × ℚ)) 3 = some out
        ∧ out.length = min 3 1) :=
  top_lengths ["zzz"] ["z"] [("a", ["x"]), ("b", ["y"])] [("s", ["a"])]
    ([] : List (String × ℚ)) ([] : List (String × ℚ)) 3
    (by decide) (by decide) (by decide) (by decide)

/-! ### Division-by-zero safety and the caller's filtering -/

theorem foldl_preserve {β σ : Type} {P : σ → Prop} {f : σ → β → σ}
    (hstep : ∀ s b, P s → P (f s b)) : ∀ (l : List β) (s : σ), P s → P (l.foldl f s) := by
  intro l
  induction l with
  | nil => intro s h; exact h
  | cons b bs ih => intro s h; exact ih _ (hstep s b h)

theorem dictInsert_values {acc : List (String × List String)} {k : String}
    {v : List String} (hacc : ∀ p ∈ acc, p.2 ≠ []) (hv : v ≠ []) :
    ∀ p ∈ dictInsert acc k v, p.2 ≠ [] := by
  rw [dictInsert]
  by_cases h : acc.any (fun p => p.1 == k) = true
  · rw [if_pos h]
    intro p hp
    obtain ⟨c, hc, rfl⟩ := List.mem_map.1 hp
    by_cases hck : (c.1 == k) = true
    · rw [if_pos hck]
      exact hv
    · rw [if_neg hck]
      exact hacc c hc
  · rw [if_neg h]
    intro p hp
    rcases List.mem_append.1 hp with hp' | hp'
    · exact hacc p hp'
    · rcases List.mem_singleton.1 hp' with rfl
      exact hv

theorem buildSentences_values_ne_nil (sentSplit tok : String → List String)
    (texts : List String) : ∀ p ∈ buildSentences sentSplit tok texts, p.2 ≠ [] := by
  rw [buildSentences]
  refine @foldl_preserve String (List (String × List String))
    (fun acc => ∀ p ∈ acc, p.2 ≠ []) _ ?_ texts [] (by intro p hp; cases hp)
  intro acc text hacc
  refine @foldl_preserve String (List (String × List String))
    (fun acc => ∀ p ∈ acc, p.2 ≠ []) _ ?_ _ acc hacc
  intro acc2 passage hacc2
  refine @foldl_preserve String (List (String × List String))
    (fun acc => ∀ p ∈ acc, p.2 ≠ []) _ ?_ _ acc2 hacc2
  intro acc3 s hacc3
  by_cases hts : tok s ≠ []
  · simpa [hts] using dictInsert_values hacc3 hts
  · simpa [hts] using hacc3

/-- Claim C7: the density division in `top_sentences` divides by the length of
the sentence's token list, so (1) under the precondition that every token
list is non-empty (and the IDF table covers the query words occurring),
`top_sentences` succeeds — no division by zero; (2) if some sentence has
an empty token list, the call is a defined failure (`none`, modelling
Python's `ZeroDivisionError`); and (3) the caller (`main`) upholds the
precondition: every token list stored by the sentence-collection loop is
non-empty, because sentences with empty tokenizations are filtered out. -/
theorem top_sentences_density_safety {α : Type} [LinearOrderedField α]
    (query : List String) (sentences : List (String × List String))
    (idfs : List (String × α)) (n : Nat)
    (sentSplit tok : String → List String) (texts : List String) :
    ((∀ sw ∈ sentences, sw.2 ≠ []) →
      (∀ sw ∈ sentences, ∀ w ∈ sw.2, w ∈ query → (idfLookup idfs w).isSome) →
      (top_sentences query sentences idfs n).isSome)
    ∧ ((∃ sw ∈ sentences, sw.2 = []) → top_sentences query sentences idfs n = none)
    ∧ (∀ p ∈ buildSentences sentSplit tok texts, p.2 ≠ []) := by
  refine ⟨?_, ?_, buildSentences_values_ne_nil sentSplit tok texts⟩
  · intro hne hcov
    rw [top_sentences, top_sentences_scored hne hcov]
    rfl
  · rintro ⟨sw, hsw, hempty⟩
    rw [top_sentences]
    have hnone : mapOpt (fun sw =>
        (sentIdfScore query idfs sw.2).bind (fun sc =>
          (sentDensity (α := α) query sw.2).map (fun d => (sw.1, sc, d)))) sentences = none := by
      apply (mapOpt_eq_none_iff _ _).2
      refine ⟨sw, hsw, ?_⟩
      cases hsc : sentIdfScore query idfs sw.2 with
      | none => rfl
      | some sc =>
        rw [Option.some_bind, hempty]
        rfl
    rw [hnone]
    rfl

/-- Concrete instance of `top_sentences_density_safety` at `α = ℚ`: part
(1) on a non-empty-token sentence list, part (2) on a sentence with an
empty token list. -/
theorem top_sentences_density_safety_witness :
    (top_sentences ["z"] [("s", ["a"])] ([] : List (String × ℚ)) 1).isSome
    ∧ top_sentences ["z"] [("s", [])] ([] : List (String × ℚ)) 1 = none :=
  ⟨(top_sentences_density_safety ["z"] [("s", ["a"])] ([] : List (String × ℚ)) 1
      (fun _ => []) (fun _ => []) []).1 (by decide) (by decide),
   (top_sentences_density_safety ["z"] [("s", [])] ([] : List (String × ℚ)) 1
      (fun _ => []) (fun _ => []) []).2.1 ⟨("s", []), by decide, rfl⟩⟩

/-! ### Output well-formedness -/

theorem map_fst_eq_of_forall₂ {γ δ : Type} {l : List (String × γ)} {ys : List (String × δ)}
    (h : List.Forall₂ (fun b c => c.1 = b.1) l ys) : ys.map Prod.fst = l.map Prod.fst := by
  induction h with
  | nil => rfl
  | cons hbc htail ih => rw [List.map_cons, List.map_cons, hbc, ih]

theorem ranked_output_wellformed {κ : Type} (f : (String × List String) → Option (String × κ))
    (hf : ∀ b c, f b = some c → c.1 = b.1) (r : (String × κ) → (String × κ) → Prop)
    [DecidableRel r] (l : List (String × List String)) (n : Nat) (out : List String)
    (h : (mapOpt f l).map (fun sl => ((sl.insertionSort r).map Prod.fst).take n) = some out) :
    (∀ x ∈ out, x ∈ l.map Prod.fst) ∧ ((l.map Prod.fst).Nodup → out.Nodup) := by
  cases hm : mapOpt f l with
  | none => rw [hm] at h; cases h
  | some ys =>
    rw [hm, Option.map_some'] at h
    have hout := Option.some.inj h
    have hfst : ys.map Prod.fst = l.map Prod.fst :=
      map_fst_eq_of_forall₂ ((mapOpt_forall₂ hm).imp (fun a b hab => hf a b hab))
    constructor
    · intro x hx
      rw [← hout] at hx
      have hx2 : x ∈ (ys.insertionSort r).map Prod.fst := (List.take_sublist n _).subset hx
      obtain ⟨p, hp, rfl⟩ := List.mem_map.1 hx2
      have hpy : p ∈ ys := (List.perm_insertionSort r ys).mem_iff.1 hp
      rw [← hfst]
      exact List.mem_map.2 ⟨p, hpy, rfl⟩
    · intro hnodup
      rw [← hout]
      apply List.Nodup.sublist (List.take_sublist n _)
      exact (((List.perm_insertionSort r ys).map Prod.fst).nodup_iff).2 (hfst ▸ hnodup)

/-- Claim C10: every name returned by `top_files` is a key of the input file
mapping and every text returned by `top_sentences` is a key of the input
sentence mapping; with distinct input keys (as in a Python dictionary)
neither output contains a repeat.  The operations are pure functions of
their arguments — the embedding returns fresh lists and cannot mutate the
input mappings. -/
theorem top_outputs_wellformed {α : Type} [LinearOrderedField α]
    (query₁ query₂ : List String) (files sentences : List (String × List String))
    (idfs₁ idfs₂ : List (String × α)) (n₁ n₂ : Nat) :
    (∀ out, top_files query₁ files idfs₁ n₁ = some out →
      (∀ x ∈ out, x ∈ files.map Prod.fst) ∧ ((files.map Prod.fst).Nodup → out.Nodup))
    ∧ (∀ out, top_sentences query₂ sentences idfs₂ n₂ = some out →
      (∀ x ∈ out, x ∈ sentences.map Prod.fst) ∧ ((sentences.map Prod.fst).Nodup → out.Nodup)) := by
  constructor
  · intro out h
    rw [top_files] at h
    refine ranked_output_wellformed _ ?_ _ files n₁ out h
    intro b c hbc
    cases hts : totalScoreOf idfs₁ (wordScoresOf query₁ b.2) with
    | none => rw [hts] at hbc; cases hbc
    | some s =>
      rw [hts, Option.map_some'] at hbc
      rw [← Option.some.inj hbc]
  · intro out h
    rw [top_sentences] at h
    refine ranked_output_wellformed _ ?_ _ sentences n₂ out h
    intro b c hbc
    cases hsc : sentIdfScore query₂ idfs₂ b.2 with
    | none => rw [hsc] at hbc; cases hbc
    | some sc =>
      rw [hsc, Option.some_bind] at hbc
      cases hd : sentDensity (α := α) query₂ b.2 with
      | none => rw [hd] at hbc; cases hbc
      | some d =>
        rw [hd, Option.map_some'] at hbc
        rw [← Option.some.inj hbc]

/-- Concrete instance of `top_outputs_wellformed` at `α = ℚ`. -/
theorem top_outputs_wellformed_witness :
    ((∀ x ∈ ["a", "b"], x ∈ ([("a", ["x"]), ("b", ["y"])].map Prod.fst : List String))
      ∧ (([("a", ["x"]), ("b", ["y"])].map (Prod.fst (β := List String))).Nodup
          → (["a", "b"] : List String).Nodup))
    ∧ ((∀ x ∈ ["s"], x ∈ ([("s", ["a"])].map Prod.fst : List String))
      ∧ (([("s", ["a"])].map (Prod.fst (β := List String))).Nodup
          → (["s"] : List String).Nodup)) :=
  ⟨(top_outputs_wellformed (α := ℚ) ["zzz"] ["z"] [("a", ["x"]), ("b", ["y"])] [("s", ["a"])]
      [] [] 2 1).1 ["a", "b"] (by decide),
   (top_outputs_wellformed (α := ℚ) ["zzz"] ["z"] [("a", ["x"]), ("b", ["y"])] [("s", ["a"])]
      [] [] 2 1).2 ["s"]
      (by simp [top_sentences, mapOpt, sentIdfScore, sentDensity, sentMatched])⟩

/-! ### Claim theorems for the tokenizer -/

/-- Claim C4: under the provenance assumption that the external word tokenizer
only emits characters of its (lowercased) input or punctuation, every
token returned by `tokenize` is non-empty, not a stopword, free of ASCII
punctuation (mid-token punctuation is deleted) and free of ASCII uppercase
letters; moreover tokenizing the empty string (when the splitter returns
nothing on it), an all-punctuation string, or a string all of whose words
reduce to stopwords or to nothing, yields the empty sequence. -/
theorem tokenize_properties (wordTok : String → List String) (stopwords : List String)
    (document : String)
    (hprov : ∀ w ∈ wordTok (lowerStr document), ∀ c ∈ w.data,
      c ∈ (lowerStr document).data ∨ isPunct c = true) :
    (∀ w ∈ tokenize wordTok stopwords document,
        w ≠ "" ∧ w ∉ stopwords ∧ (∀ c ∈ w.data, isPunct c = false)
          ∧ (∀ c ∈ w.data, isAsciiUpper c = false))
    ∧ (wordTok "" = [] → tokenize wordTok stopwords "" = [])
    ∧ ((∀ c ∈ document.data, isPunct c = true) → tokenize wordTok stopwords document = [])
    ∧ ((∀ w ∈ wordTok (lowerStr document),
          stripPunctStr w ∈ stopwords ∨ stripPunctStr w = "") →
        tokenize wordTok stopwords document = []) := by
  refine ⟨?_, ?_, ?_, ?_⟩
  · intro w hw
    obtain ⟨hne, hnsw, hnp, w₀, hw₀, rfl⟩ := mem_tokenize hw
    refine ⟨hne, hnsw, hnp, ?_⟩
    intro c hc
    have hc' : c ∈ stripPunct w₀.data := hc
    have hcw : c ∈ w₀.data := stripPunct_subset hc'
    have hnot : isPunct c = false := stripPunct_no_punct hc'
    rcases hprov w₀ hw₀ c hcw with hmem | hpunct
    · rw [data_lowerStr] at hmem
      obtain ⟨c₀, _, rfl⟩ := List.mem_map.1 hmem
      exact isAsciiUpper_toLower c₀
    · rw [hpunct] at hnot
      cases hnot
  · intro h0
    rw [tokenize]
    have hempty : lowerStr "" = "" := rfl
    rw [hempty, h0]
    rfl
  · intro hp
    rw [tokenize]
    apply List.filter_eq_nil_iff.2
    intro x hx
    obtain ⟨w₀, hw₀, rfl⟩ := List.mem_map.1 hx
    have hstrip : stripPunctStr w₀ = "" := by
      rw [stripPunctStr, stripPunct_eq_filter]
      have hnil : w₀.data.filter (fun x => !(isPunct x)) = [] := by
        apply List.filter_eq_nil_iff.2
        intro c hc
        rcases hprov w₀ hw₀ c hc with hmem | hpunct
        · rw [data_lowerStr] at hmem
          obtain ⟨c₀, hc₀, rfl⟩ := List.mem_map.1 hmem
          rw [toLower_of_punct (hp c₀ hc₀)]
          simp [hp c₀ hc₀]
        · simp [hpunct]
      rw [hnil]
    rw [hstrip]
    simp
  · intro hall
    rw [tokenize]
    apply List.filter_eq_nil_iff.2
    intro x hx
    obtain ⟨w₀, hw₀, rfl⟩ := List.mem_map.1 hx
    rcases hall w₀ hw₀ with hsw | hnil
    · simp [hsw]
    · rw [hnil]
      simp

/-- Concrete instance of `tokenize_properties`: an all-punctuation string
tokenizes to the empty sequence (with the whitespace splitter). -/
theorem tokenize_properties_witness : tokenize splitWords ["the"] "!?." = [] :=
  (tokenize_properties splitWords ["the"] "!?." (by decide)).2.2.1 (by decide)

/-- Claim C8: `tokenize` is idempotent on its own output: if the word splitter
splits the space-joined token list back into the tokens (true of any
whitespace-respecting tokenizer, since the tokens contain no separators),
then re-tokenizing the joined output returns the same sequence — the
tokens are already lowercase, punctuation-free and non-stopword, so they
pass through unchanged. -/
theorem tokenize_idempotent (wordTok : String → List String) (stopwords : List String)
    (document : String)
    (hsplit : wordTok (lowerStr (String.intercalate " " (tokenize wordTok stopwords document)))
      = tokenize wordTok stopwords document) :
    tokenize wordTok stopwords (String.intercalate " " (tokenize wordTok stopwords document))
      = tokenize wordTok stopwords document := by
  conv_lhs => rw [tokenize]
  rw [hsplit]
  have hmap : (tokenize wordTok stopwords document).map stripPunctStr
      = tokenize wordTok stopwords document := by
    have : (tokenize wordTok stopwords document).map stripPunctStr
        = (tokenize wordTok stopwords document).map id := by
      apply List.map_congr_left
      intro t ht
      obtain ⟨_, _, hnp, _⟩ := mem_tokenize ht
      show stripPunctStr t = t
      rw [stripPunctStr, stripPunct_of_no_punct hnp]
    rw [this, List.map_id]
  rw [hmap]
  apply List.filter_eq_self.2
  intro t ht
  obtain ⟨hne, hnsw, _⟩ := mem_tokenize ht
  simp [hne, hnsw]

/-- Concrete instance of `tokenize_idempotent` with the whitespace
splitter. -/
theorem tokenize_idempotent_witness :
    tokenize splitWords ["the"]
        (String.intercalate " " (tokenize splitWords ["the"] "The cat sat!"))
      = tokenize splitWords ["the"] "The cat sat!" :=
  tokenize_idempotent splitWords ["the"] "The cat sat!" (by decide)

end Questions
